import Mathlib

/-!
Verification of the layered animation data model and evaluation engine of
the `blender::animrig` subsystem.

The data model (`Animation`, `Layer`, `Strip`, `KeyframeStrip` payload,
`ChannelsForOutput`, `Output`, `PropIdentifier`) follows the source headers
as described by the specification.  The search loop of
`fcurve_find_by_rna_path` is translated directly from
`source/blender/animrig/intern/animdata.cc`, and the validity-marking pass
`reevaluate_fcurve_errors` from the same file.  Frame times are embedded as
rationals: the claims under study concern control flow, comparisons and
ordering, which are uniform over any linearly ordered field.
-/

set_option autoImplicit false

namespace BlenderAnimrig

/-- Composite key addressing one animatable scalar: property path plus
element index (`PropIdentifier` in `ANIM_animation.hh`). -/
structure PropIdentifier where
  rna_path : String
  array_index : Int
deriving DecidableEq, Repr

/-- One keyframed scalar channel.  The keyframe points are kept as
`(time, value)` pairs; the interpolation engine itself is an external
capability (see `FCurve.evaluate` below). -/
structure FCurve where
  rna_path : String
  array_index : Int
  keys : List (ℚ × ℚ)
deriving DecidableEq, Repr

/-- Mapping from property identifier to curve, scoped to one `Output`
inside one keyframe strip (`ChannelsForOutput` in `ANIM_animation.hh`). -/
structure ChannelsForOutput where
  output_stable_index : Nat
  fcurves : List FCurve
deriving DecidableEq, Repr

/-- Modelled from the spec: `ChannelsForOutput::fcurve_find` (declared in
`ANIM_animation.hh`, not among the sampled sources) returns the curve for
the given property path and array index, or none. -/
def ChannelsForOutput.fcurve_find (cfo : ChannelsForOutput) (rna_path : String)
    (array_index : Int) : Option FCurve :=
  cfo.fcurves.find? (fun fcu => fcu.rna_path == rna_path && fcu.array_index == array_index)

/-- Payload of a strip; `ANIM_STRIP_TYPE_KEYFRAME` is the only strip type
implemented in the source, so the tagged union has a single variant. -/
inductive StripData where
  | keyframe (channels : List ChannelsForOutput)
deriving DecidableEq, Repr

/-- A time-ranged, polymorphic unit of animation data. -/
structure Strip where
  frame_start : ℚ
  frame_end : ℚ
  data : StripData
deriving DecidableEq, Repr

/-- Modelled from the spec: `Strip::contains_frame` (declared in
`ANIM_animation.hh`, not among the sampled sources) is true iff
`frame_start ≤ t ≤ frame_end` (inclusive range). -/
def Strip.contains_frame (s : Strip) (t : ℚ) : Bool :=
  decide (s.frame_start ≤ t) && decide (t ≤ s.frame_end)

/-- Distance from a query time to the nearer strip boundary, as computed at
the fallback-tracking step of `fcurve_find_by_rna_path`
(`min_ff(fabs(t - frame_start), fabs(t - frame_end))`). -/
def Strip.frame_distance (s : Strip) (t : ℚ) : ℚ :=
  min |t - s.frame_start| |t - s.frame_end|

/-- Modelled from the spec: `KeyframeStrip::chans_for_out` (declared in
`ANIM_animation.hh`, not among the sampled sources) finds the
channels-for-output table for the output with the given stable index. -/
def chans_for_out (channels : List ChannelsForOutput) (output_index : Nat) :
    Option ChannelsForOutput :=
  channels.find? (fun cfo => cfo.output_stable_index == output_index)

/-- A bindable animation target: a stable index plus the (nullable) binding
to one external entity, identified here by a numeric entity id. -/
structure Output where
  stable_index : Nat
  bound_id : Option Nat
deriving DecidableEq, Repr

/-- An ordered sequence of strips; layer order within the animation is
cross-layer precedence (later layers override earlier ones). -/
structure Layer where
  name : String
  strips : List Strip
deriving DecidableEq, Repr

/-- Top-level container of layers and outputs. -/
structure Animation where
  layers : List Layer
  outputs : List Output
deriving DecidableEq, Repr

/-- Modelled from the spec: `Animation::output_for_id` (declared in
`ANIM_animation.hh`, not among the sampled sources) resolves an animated
entity to its bound output, if any. -/
def Animation.output_for_id (anim : Animation) (animated_id : Nat) : Option Output :=
  anim.outputs.find? (fun out => out.bound_id == some animated_id)

/-- Inner loop of `fcurve_find_by_rna_path` (`animdata.cc`): scan one
layer's strips in stored order.  `.error fcu` models the C++ early
`return fcu` on an exact (range-containing) match; the `.ok` state carries
the best non-exact candidate found so far together with its boundary
distance (`found_on_other_strip` / `found_at_time_distance`; `none` stands
for the initial infinite distance). -/
def strip_scan (t : ℚ) (output_index : Nat) (rna_path : String) (array_index : Int) :
    List Strip → Option (FCurve × ℚ) → Except FCurve (Option (FCurve × ℚ))
  | [], st => .ok st
  | strip :: rest, st =>
    match strip.data with
    | .keyframe channels =>
      match chans_for_out channels output_index with
      | none => strip_scan t output_index rna_path array_index rest st
      | some cfo =>
        match cfo.fcurve_find rna_path array_index with
        | none => strip_scan t output_index rna_path array_index rest st
        | some fcu =>
          if strip.contains_frame t then .error fcu
          else
            let d := strip.frame_distance t
            match st with
            | none => strip_scan t output_index rna_path array_index rest (some (fcu, d))
            | some (best_fcu, best_d) =>
              if d < best_d then
                strip_scan t output_index rna_path array_index rest (some (fcu, d))
              else
                strip_scan t output_index rna_path array_index rest (some (best_fcu, best_d))

/-- Outer loop of `fcurve_find_by_rna_path` (`animdata.cc`): scan a list of
layers (already ordered top-down), threading the fallback state. -/
def layer_scan (t : ℚ) (output_index : Nat) (rna_path : String) (array_index : Int) :
    List Layer → Option (FCurve × ℚ) → Except FCurve (Option (FCurve × ℚ))
  | [], st => .ok st
  | layer :: rest, st =>
    match strip_scan t output_index rna_path array_index layer.strips st with
    | .error fcu => .error fcu
    | .ok st1 => layer_scan t output_index rna_path array_index rest st1

/-- `fcurve_find_by_rna_path` from `animdata.cc`: resolve the entity to its
output (none if unbound), then scan the layers from highest index to lowest
(`layers.reverse`), returning the first exact match immediately and the
best non-exact candidate otherwise. -/
def fcurve_find_by_rna_path (anim : Animation) (animated_id : Nat) (frame_time : ℚ)
    (rna_path : String) (array_index : Int) : Option FCurve :=
  match anim.output_for_id animated_id with
  | none => none
  | some out =>
    match layer_scan frame_time out.stable_index rna_path array_index anim.layers.reverse none with
    | .error fcu => some fcu
    | .ok none => none
    | .ok (some (fcu, _)) => some fcu

/-! Specification-side observers for the search.  These restate, as direct
list searches, what the claims say the loop computes; the theorems below
relate them to the loop translated above. -/

/-- The curve a strip carries for the given output and property identifier
(the channels-for-output lookup followed by the curve lookup), or none. -/
def strip_fcurve_for (output_index : Nat) (rna_path : String) (array_index : Int)
    (strip : Strip) : Option FCurve :=
  match strip.data with
  | .keyframe channels =>
    match chans_for_out channels output_index with
    | none => none
    | some cfo => cfo.fcurve_find rna_path array_index

/-- The curve a strip carries for the identifier, provided the strip's
inclusive range contains the query time (an exact match). -/
def strip_exact (t : ℚ) (output_index : Nat) (rna_path : String) (array_index : Int)
    (strip : Strip) : Option FCurve :=
  match strip_fcurve_for output_index rna_path array_index strip with
  | none => none
  | some fcu => if strip.contains_frame t then some fcu else none

/-- First exact match over a list of layers (strips in stored order inside
each layer).  Applied to the reversed layer list this is the top-down,
in-layer-order first exact match. -/
def first_exact (t : ℚ) (output_index : Nat) (rna_path : String) (array_index : Int)
    (layers : List Layer) : Option FCurve :=
  layers.findSome? (fun layer => layer.strips.findSome? (strip_exact t output_index rna_path array_index))

/-- The non-exact candidate a strip contributes: its curve for the
identifier paired with the boundary distance, when the strip does not
contain the query time. -/
def strip_candidate (t : ℚ) (output_index : Nat) (rna_path : String) (array_index : Int)
    (strip : Strip) : Option (FCurve × ℚ) :=
  match strip_fcurve_for output_index rna_path array_index strip with
  | none => none
  | some fcu => if strip.contains_frame t then none else some (fcu, strip.frame_distance t)

/-- All non-exact candidates of a layer list, in scan order. -/
def candidates (t : ℚ) (output_index : Nat) (rna_path : String) (array_index : Int)
    (layers : List Layer) : List (FCurve × ℚ) :=
  (layers.flatMap Layer.strips).filterMap (strip_candidate t output_index rna_path array_index)

/-- The earliest element of minimal second component: later elements
replace the current best only on strictly smaller distance. -/
def firstMin : List (FCurve × ℚ) → Option (FCurve × ℚ)
  | [] => none
  | x :: xs =>
    match firstMin xs with
    | none => some x
    | some y => if y.2 < x.2 then some y else some x

/-- One fallback-tracking step of the scan state, as in the loop body. -/
def fold_best (st : Option (FCurve × ℚ)) (c : FCurve × ℚ) : Option (FCurve × ℚ) :=
  match st with
  | none => some c
  | some (best_fcu, best_d) => if c.2 < best_d then some c else some (best_fcu, best_d)

/-- Characterization of `strip_exact` as a conjunction. -/
theorem strip_exact_eq_some {t : ℚ} {oi : Nat} {p : String} {ai : Int} {s : Strip} {fcu : FCurve} :
    strip_exact t oi p ai s = some fcu ↔
      strip_fcurve_for oi p ai s = some fcu ∧ s.contains_frame t = true := by
  unfold strip_exact
  cases h : strip_fcurve_for oi p ai s with
  | none => simp
  | some fcu1 =>
    by_cases hc : s.contains_frame t <;> simp [hc]

/-- One step of the strip loop, expressed through the spec-side observers:
an exact match raises the early return, otherwise the fallback state is
updated with the strip's candidate (if any). -/
theorem strip_scan_cons (t : ℚ) (oi : Nat) (p : String) (ai : Int)
    (strip : Strip) (rest : List Strip) (st : Option (FCurve × ℚ)) :
    strip_scan t oi p ai (strip :: rest) st =
      match strip_exact t oi p ai strip with
      | some fcu => .error fcu
      | none =>
        strip_scan t oi p ai rest
          (match strip_candidate t oi p ai strip with
           | none => st
           | some c => fold_best st c) := by
  obtain ⟨fs, fe, data⟩ := strip
  obtain ⟨channels⟩ := data
  cases h1 : chans_for_out channels oi with
  | none => simp [strip_scan, strip_exact, strip_candidate, strip_fcurve_for, h1]
  | some cfo =>
    cases h2 : cfo.fcurve_find p ai with
    | none => simp [strip_scan, strip_exact, strip_candidate, strip_fcurve_for, h1, h2]
    | some fcu =>
      by_cases hc : Strip.contains_frame ⟨fs, fe, .keyframe channels⟩ t = true
      · simp [strip_scan, strip_exact, strip_fcurve_for, h1, h2, hc]
      · cases st with
        | none =>
          simp [strip_scan, strip_exact, strip_candidate, strip_fcurve_for, fold_best, h1, h2, hc]
        | some best =>
          obtain ⟨bf, bd⟩ := best
          simp only [strip_scan, strip_exact, strip_candidate, strip_fcurve_for, fold_best, h1, h2,
            hc, if_false, Bool.false_eq_true]
          rw [apply_ite (strip_scan t oi p ai rest)]

/-- The strip loop takes the early return iff the strip list has a
first exact match, and returns exactly that match. -/
theorem strip_scan_error_iff (t : ℚ) (oi : Nat) (p : String) (ai : Int)
    (strips : List Strip) (st : Option (FCurve × ℚ)) (fcu : FCurve) :
    strip_scan t oi p ai strips st = .error fcu ↔
      strips.findSome? (strip_exact t oi p ai) = some fcu := by
  induction strips generalizing st with
  | nil => simp [strip_scan]
  | cons strip rest ih =>
    rw [strip_scan_cons, List.findSome?_cons]
    cases he : strip_exact t oi p ai strip with
    | none => simp [ih]
    | some fcu1 => simp

/-- When the strip list has no exact match, the strip loop folds the
fallback update over the strips' candidates in order. -/
theorem strip_scan_ok (t : ℚ) (oi : Nat) (p : String) (ai : Int)
    (strips : List Strip) (st : Option (FCurve × ℚ))
    (h : strips.findSome? (strip_exact t oi p ai) = none) :
    strip_scan t oi p ai strips st =
      .ok ((strips.filterMap (strip_candidate t oi p ai)).foldl fold_best st) := by
  induction strips generalizing st with
  | nil => simp [strip_scan]
  | cons strip rest ih =>
    rw [List.findSome?_cons] at h
    cases he : strip_exact t oi p ai strip with
    | some fcu1 => simp [he] at h
    | none =>
      rw [he] at h
      rw [strip_scan_cons, he, List.filterMap_cons]
      cases hc : strip_candidate t oi p ai strip with
      | none => simp [ih st h]
      | some c => simp [ih (fold_best st c) h]

/-- The layer loop takes the early return iff the layer list has a first
exact match, and returns exactly that match. -/
theorem layer_scan_error_iff (t : ℚ) (oi : Nat) (p : String) (ai : Int)
    (layers : List Layer) (st : Option (FCurve × ℚ)) (fcu : FCurve) :
    layer_scan t oi p ai layers st = .error fcu ↔
      first_exact t oi p ai layers = some fcu := by
  induction layers generalizing st with
  | nil => simp [layer_scan, first_exact]
  | cons layer rest ih =>
    rw [layer_scan]
    unfold first_exact
    rw [List.findSome?_cons]
    cases he : layer.strips.findSome? (strip_exact t oi p ai) with
    | some fcu1 =>
      rw [(strip_scan_error_iff t oi p ai layer.strips st fcu1).2 he]
      simp
    | none =>
      cases hs : strip_scan t oi p ai layer.strips st with
      | error fcu1 =>
        rw [strip_scan_error_iff] at hs
        rw [hs] at he
        exact absurd he (by simp)
      | ok st1 => simpa using ih st1

/-- When no layer has an exact match, the layer loop folds the fallback
update over all candidates in scan order. -/
theorem layer_scan_ok (t : ℚ) (oi : Nat) (p : String) (ai : Int)
    (layers : List Layer) (st : Option (FCurve × ℚ))
    (h : first_exact t oi p ai layers = none) :
    layer_scan t oi p ai layers st =
      .ok ((candidates t oi p ai layers).foldl fold_best st) := by
  induction layers generalizing st with
  | nil => simp [layer_scan, candidates]
  | cons layer rest ih =>
    unfold first_exact at h
    rw [List.findSome?_cons] at h
    cases he : layer.strips.findSome? (strip_exact t oi p ai) with
    | some fcu1 => simp [he] at h
    | none =>
      simp only [he] at h
      rw [layer_scan, strip_scan_ok t oi p ai layer.strips st he]
      show layer_scan t oi p ai rest
          ((layer.strips.filterMap (strip_candidate t oi p ai)).foldl fold_best st) = _
      rw [ih _ h]
      unfold candidates
      rw [List.flatMap_cons, List.filterMap_append, List.foldl_append]

/-- Combine a pre-existing best candidate with the best of a later scan
segment: the later one wins only on strictly smaller distance. -/
def mergeBest : Option (FCurve × ℚ) → Option (FCurve × ℚ) → Option (FCurve × ℚ)
  | none, r => r
  | some y, none => some y
  | some y, some z => if z.2 < y.2 then some z else some y

/-- Folding the fallback update over a candidate list computes the earliest
minimal-distance candidate, merged with the initial state. -/
theorem foldl_fold_best (l : List (FCurve × ℚ)) :
    ∀ st : Option (FCurve × ℚ), l.foldl fold_best st = mergeBest st (firstMin l) := by
  induction l with
  | nil => intro st; cases st <;> simp [firstMin, mergeBest]
  | cons x xs ih =>
    intro st
    rw [List.foldl_cons, ih (fold_best st x)]
    cases hfm : firstMin xs with
    | none =>
      cases st with
      | none => simp [firstMin, hfm, mergeBest, fold_best]
      | some y =>
        obtain ⟨yf, yd⟩ := y
        by_cases hx : x.2 < yd <;> simp [firstMin, hfm, mergeBest, fold_best, hx]
    | some z =>
      cases st with
      | none =>
        by_cases hz : z.2 < x.2 <;> simp [firstMin, hfm, mergeBest, fold_best, hz]
      | some y =>
        obtain ⟨yf, yd⟩ := y
        by_cases hx : x.2 < yd <;> by_cases hz : z.2 < x.2 <;>
          simp only [firstMin, hfm, mergeBest, fold_best, hx, hz, if_true, if_false] <;>
          split_ifs <;> first | rfl | (exfalso; linarith)

/-- `firstMin` returns none exactly on the empty list. -/
theorem firstMin_eq_none {l : List (FCurve × ℚ)} : firstMin l = none ↔ l = [] := by
  cases l with
  | nil => simp [firstMin]
  | cons x xs =>
    cases hfm : firstMin xs with
    | none => simp [firstMin, hfm]
    | some z => by_cases hz : z.2 < x.2 <;> simp [firstMin, hfm, hz]

/-- `firstMin` splits the list around the earliest element of minimal
distance: everything before it is strictly larger, everything after it is
at least as large. -/
theorem firstMin_spec :
    ∀ l : List (FCurve × ℚ), l ≠ [] →
      ∃ c pre suf, firstMin l = some c ∧ l = pre ++ c :: suf ∧
        (∀ q ∈ pre, c.2 < q.2) ∧ (∀ q ∈ suf, c.2 ≤ q.2)
  | [], h => absurd rfl h
  | x :: xs, _ => by
    cases hxs : xs with
    | nil =>
      refine ⟨x, [], [], ?_, by simp, by simp, by simp⟩
      simp [firstMin]
    | cons y ys =>
      obtain ⟨c, pre, suf, hfm, hsplit, hpre, hsuf⟩ :=
        firstMin_spec xs (by simp [hxs])
      rw [← hxs]
      by_cases hcx : c.2 < x.2
      · refine ⟨c, x :: pre, suf, ?_, by simp [hsplit], ?_, hsuf⟩
        · simp [firstMin, hfm, hcx]
        · intro q hq
          rcases List.mem_cons.1 hq with hq | hq
          · exact hq ▸ hcx
          · exact hpre q hq
      · refine ⟨x, [], xs, ?_, by simp, by simp, ?_⟩
        · simp [firstMin, hfm, hcx]
        · intro q hq
          have hxc : x.2 ≤ c.2 := le_of_not_lt hcx
          rw [hsplit] at hq
          rcases List.mem_append.1 hq with hq | hq
          · exact le_of_lt (lt_of_le_of_lt hxc (hpre q hq))
          · rcases List.mem_cons.1 hq with hq | hq
            · exact hq ▸ hxc
            · exact le_trans hxc (hsuf q hq)

/-- Unfolding of `fcurve_find_by_rna_path` once the output is resolved. -/
theorem fcurve_find_eq_some_out (anim : Animation) (animated_id : Nat) (t : ℚ)
    (p : String) (ai : Int) (out : Output)
    (hout : anim.output_for_id animated_id = some out) :
    fcurve_find_by_rna_path anim animated_id t p ai =
      match layer_scan t out.stable_index p ai anim.layers.reverse none with
      | .error fcu => some fcu
      | .ok none => none
      | .ok (some (fcu, _)) => some fcu := by
  unfold fcurve_find_by_rna_path
  rw [hout]

theorem mergeBest_none (r : Option (FCurve × ℚ)) : mergeBest none r = r := rfl

/-- A strip contributes no exact match iff it carries no curve for the
identifier or does not contain the query time. -/
theorem strip_exact_eq_none_iff {t : ℚ} {oi : Nat} {p : String} {ai : Int} {s : Strip} :
    strip_exact t oi p ai s = none ↔
      strip_fcurve_for oi p ai s = none ∨ s.contains_frame t = false := by
  unfold strip_exact
  cases h : strip_fcurve_for oi p ai s with
  | none => simp
  | some fcu => by_cases hc : s.contains_frame t = true <;> simp_all

/-- A strip contributes no fallback candidate iff it carries no curve for
the identifier or contains the query time. -/
theorem strip_candidate_eq_none_iff {t : ℚ} {oi : Nat} {p : String} {ai : Int} {s : Strip} :
    strip_candidate t oi p ai s = none ↔
      strip_fcurve_for oi p ai s = none ∨ s.contains_frame t = true := by
  unfold strip_candidate
  cases h : strip_fcurve_for oi p ai s with
  | none => simp
  | some fcu => by_cases hc : s.contains_frame t = true <;> simp_all

/-- The result is none iff there is neither an exact match nor a fallback
candidate anywhere in the scan. -/
theorem fcurve_find_none_characterization (anim : Animation) (animated_id : Nat) (t : ℚ)
    (p : String) (ai : Int) (out : Output)
    (hout : anim.output_for_id animated_id = some out) :
    (fcurve_find_by_rna_path anim animated_id t p ai = none ↔
      first_exact t out.stable_index p ai anim.layers.reverse = none ∧
      candidates t out.stable_index p ai anim.layers.reverse = []) := by
  rw [fcurve_find_eq_some_out anim animated_id t p ai out hout]
  cases hscan : layer_scan t out.stable_index p ai anim.layers.reverse none with
  | error fcu =>
    rw [layer_scan_error_iff] at hscan
    simp [hscan]
  | ok st =>
    have hfe : first_exact t out.stable_index p ai anim.layers.reverse = none := by
      cases hfe : first_exact t out.stable_index p ai anim.layers.reverse with
      | none => rfl
      | some fcu =>
        rw [← layer_scan_error_iff t out.stable_index p ai anim.layers.reverse none fcu] at hfe
        rw [hfe] at hscan
        exact absurd hscan (by simp)
    have hok := layer_scan_ok t out.stable_index p ai anim.layers.reverse none hfe
    rw [hok] at hscan
    rw [foldl_fold_best, mergeBest_none] at hscan
    have hst : st = firstMin (candidates t out.stable_index p ai anim.layers.reverse) :=
      (Except.ok.inj hscan).symm
    cases hc : firstMin (candidates t out.stable_index p ai anim.layers.reverse) with
    | none =>
      rw [hc] at hst
      subst hst
      simp [hfe, firstMin_eq_none.1 hc]
    | some c =>
      rw [hc] at hst
      subst hst
      obtain ⟨cf, cd⟩ := c
      have : candidates t out.stable_index p ai anim.layers.reverse ≠ [] := by
        intro hnil
        rw [hnil] at hc
        simp [firstMin] at hc
      simp [this]

/-- C2: exact-match priority.  If any keyframe strip in any layer carries
the requested property identifier for the resolved output and its range
contains the query time, the returned curve comes from such a containing
strip (never from a merely nearby non-containing strip). -/
theorem fcurve_find_exact_match_priority (anim : Animation) (animated_id : Nat) (t : ℚ)
    (p : String) (ai : Int) (out : Output)
    (hout : anim.output_for_id animated_id = some out)
    (hex : ∃ layer ∈ anim.layers, ∃ strip ∈ layer.strips,
      (strip_exact t out.stable_index p ai strip).isSome) :
    ∃ fcu, fcurve_find_by_rna_path anim animated_id t p ai = some fcu ∧
      ∃ layer ∈ anim.layers, ∃ strip ∈ layer.strips,
        strip_fcurve_for out.stable_index p ai strip = some fcu ∧
        strip.contains_frame t = true := by
  have h1 : first_exact t out.stable_index p ai anim.layers.reverse ≠ none := by
    intro hnone
    unfold first_exact at hnone
    rw [List.findSome?_eq_none_iff] at hnone
    obtain ⟨layer, hl, strip, hs, hx⟩ := hex
    have h2 := hnone layer (List.mem_reverse.2 hl)
    rw [List.findSome?_eq_none_iff] at h2
    rw [h2 strip hs] at hx
    simp at hx
  cases hfe : first_exact t out.stable_index p ai anim.layers.reverse with
  | none => exact absurd hfe h1
  | some fcu =>
    refine ⟨fcu, ?_, ?_⟩
    · rw [fcurve_find_eq_some_out anim animated_id t p ai out hout,
        (layer_scan_error_iff t out.stable_index p ai anim.layers.reverse none fcu).2 hfe]
    · unfold first_exact at hfe
      obtain ⟨layer, hl, hls⟩ := List.exists_of_findSome?_eq_some hfe
      obtain ⟨strip, hs, hse⟩ := List.exists_of_findSome?_eq_some hls
      obtain ⟨hf, hc⟩ := strip_exact_eq_some.1 hse
      exact ⟨layer, List.mem_reverse.1 hl, strip, hs, hf, hc⟩

/-- C3: top-down precedence.  The returned curve is the first exact match
in the scan that visits layers from highest index to lowest
(`anim.layers.reverse`) and, within each layer, strips in stored order:
when several layers contain an exact match, the highest-index layer wins,
and within it the first matching strip in stored order. -/
theorem fcurve_find_top_down_precedence (anim : Animation) (animated_id : Nat) (t : ℚ)
    (p : String) (ai : Int) (out : Output) (fcu : FCurve)
    (hout : anim.output_for_id animated_id = some out)
    (hfe : first_exact t out.stable_index p ai anim.layers.reverse = some fcu) :
    fcurve_find_by_rna_path anim animated_id t p ai = some fcu := by
  rw [fcurve_find_eq_some_out anim animated_id t p ai out hout,
    (layer_scan_error_iff t out.stable_index p ai anim.layers.reverse none fcu).2 hfe]

/-- C4: nearest fallback.  When no strip carrying the identifier contains
the query time, the returned curve is the earliest candidate of minimal
boundary distance in the top-down, in-layer-order scan: candidates before
it have strictly greater distance (ties keep the earlier find), candidates
after it have distance at least as large. -/
theorem fcurve_find_nearest_fallback (anim : Animation) (animated_id : Nat) (t : ℚ)
    (p : String) (ai : Int) (out : Output)
    (hout : anim.output_for_id animated_id = some out)
    (hnoexact : ∀ layer ∈ anim.layers, ∀ strip ∈ layer.strips,
      strip_exact t out.stable_index p ai strip = none)
    (hne : candidates t out.stable_index p ai anim.layers.reverse ≠ []) :
    ∃ best pre suf,
      fcurve_find_by_rna_path anim animated_id t p ai = some best.1 ∧
      candidates t out.stable_index p ai anim.layers.reverse = pre ++ best :: suf ∧
      (∀ q ∈ pre, best.2 < q.2) ∧ (∀ q ∈ suf, best.2 ≤ q.2) := by
  have hfe : first_exact t out.stable_index p ai anim.layers.reverse = none := by
    unfold first_exact
    rw [List.findSome?_eq_none_iff]
    intro layer hl
    rw [List.findSome?_eq_none_iff]
    intro strip hs
    exact hnoexact layer (List.mem_reverse.1 hl) strip hs
  obtain ⟨c, pre, suf, hfm, hsplit, hpre, hsuf⟩ := firstMin_spec _ hne
  obtain ⟨cf, cd⟩ := c
  refine ⟨(cf, cd), pre, suf, ?_, hsplit, hpre, hsuf⟩
  rw [fcurve_find_eq_some_out anim animated_id t p ai out hout,
    layer_scan_ok t out.stable_index p ai anim.layers.reverse none hfe,
    foldl_fold_best, mergeBest_none, hfm]

/-- C5: absence handling.  The search returns none for an unbound entity;
for a bound entity it returns none iff no keyframe strip in any layer
carries the requested property identifier for that output. -/
theorem fcurve_find_none_iff_no_channel (anim : Animation) (animated_id : Nat) (t : ℚ)
    (p : String) (ai : Int) :
    (anim.output_for_id animated_id = none →
      fcurve_find_by_rna_path anim animated_id t p ai = none) ∧
    (∀ out, anim.output_for_id animated_id = some out →
      (fcurve_find_by_rna_path anim animated_id t p ai = none ↔
        ∀ layer ∈ anim.layers, ∀ strip ∈ layer.strips,
          strip_fcurve_for out.stable_index p ai strip = none)) := by
  constructor
  · intro hout
    unfold fcurve_find_by_rna_path
    rw [hout]
  · intro out hout
    rw [fcurve_find_none_characterization anim animated_id t p ai out hout]
    constructor
    · rintro ⟨hfe, hcand⟩ layer hl strip hs
      unfold first_exact at hfe
      rw [List.findSome?_eq_none_iff] at hfe
      have h2 := hfe layer (List.mem_reverse.2 hl)
      rw [List.findSome?_eq_none_iff] at h2
      have hex := h2 strip hs
      unfold candidates at hcand
      rw [List.filterMap_eq_nil_iff] at hcand
      have hcd := hcand strip (List.mem_flatMap.2 ⟨layer, List.mem_reverse.2 hl, hs⟩)
      rcases strip_exact_eq_none_iff.1 hex with hf | hc
      · exact hf
      · rcases strip_candidate_eq_none_iff.1 hcd with hf | hc2
        · exact hf
        · rw [hc] at hc2
          exact absurd hc2 (by simp)
    · intro hnone
      constructor
      · unfold first_exact
        rw [List.findSome?_eq_none_iff]
        intro layer hl
        rw [List.findSome?_eq_none_iff]
        intro strip hs
        exact strip_exact_eq_none_iff.2
          (Or.inl (hnone layer (List.mem_reverse.1 hl) strip hs))
      · unfold candidates
        rw [List.filterMap_eq_nil_iff]
        intro strip hstrip
        obtain ⟨layer, hl, hs⟩ := List.mem_flatMap.1 hstrip
        exact strip_candidate_eq_none_iff.2
          (Or.inl (hnone layer (List.mem_reverse.1 hl) strip hs))

/-! Concrete fixtures used to instantiate the theorems above: one entity
(id 7) bound to the output with stable index 0. -/

def wCurveA : FCurve := ⟨"location", 0, [(1, 10)]⟩

def wCurveB : FCurve := ⟨"location", 0, [(2, 20)]⟩

/-- Strip over frames 1 to 5 animating location element 0 with `wCurveA`. -/
def wStripA : Strip := ⟨1, 5, .keyframe [⟨0, [wCurveA]⟩]⟩

/-- Strip over frames 2 to 6 animating location element 0 with `wCurveB`. -/
def wStripB : Strip := ⟨2, 6, .keyframe [⟨0, [wCurveB]⟩]⟩

/-- Strip over frames 10 to 20 animating location element 0 with `wCurveB`. -/
def wStripFar : Strip := ⟨10, 20, .keyframe [⟨0, [wCurveB]⟩]⟩

def wLayerBottom : Layer := ⟨"bottom", [wStripA]⟩

def wLayerTop : Layer := ⟨"top", [wStripB]⟩

def wLayerTopFar : Layer := ⟨"top", [wStripFar]⟩

/-- Two layers, both with an exact match at frame 3. -/
def wAnimExact : Animation := ⟨[wLayerBottom, wLayerTop], [⟨0, some 7⟩]⟩

/-- Two layers, neither containing frame 7: boundary distances 2 (bottom
layer strip) and 3 (top layer strip). -/
def wAnimFallback : Animation := ⟨[wLayerBottom, wLayerTopFar], [⟨0, some 7⟩]⟩

theorem fcurve_find_exact_match_priority_witness :
    ∃ fcu, fcurve_find_by_rna_path wAnimExact 7 3 "location" 0 = some fcu ∧
      ∃ layer ∈ wAnimExact.layers, ∃ strip ∈ layer.strips,
        strip_fcurve_for (0 : Nat) "location" 0 strip = some fcu ∧
        strip.contains_frame 3 = true :=
  fcurve_find_exact_match_priority wAnimExact 7 3 "location" 0 ⟨0, some 7⟩ (by decide)
    ⟨wLayerBottom, by decide, wStripA, by decide, by decide⟩

theorem fcurve_find_top_down_precedence_witness :
    fcurve_find_by_rna_path wAnimExact 7 3 "location" 0 = some wCurveB :=
  fcurve_find_top_down_precedence wAnimExact 7 3 "location" 0 ⟨0, some 7⟩ wCurveB
    (by decide) (by decide)

theorem fcurve_find_nearest_fallback_witness :
    ∃ best pre suf,
      fcurve_find_by_rna_path wAnimFallback 7 7 "location" 0 = some best.1 ∧
      candidates 7 0 "location" 0 wAnimFallback.layers.reverse = pre ++ best :: suf ∧
      (∀ q ∈ pre, best.2 < q.2) ∧ (∀ q ∈ suf, best.2 ≤ q.2) :=
  fcurve_find_nearest_fallback wAnimFallback 7 7 "location" 0 ⟨0, some 7⟩
    (by decide) (by decide) (by decide)

theorem fcurve_find_none_iff_no_channel_witness :
    fcurve_find_by_rna_path wAnimExact 8 3 "location" 0 = none :=
  (fcurve_find_none_iff_no_channel wAnimExact 8 3 "location" 0).1 (by decide)

/-! The validity-marking pass `reevaluate_fcurve_errors` (`animdata.cc`).
The legacy F-Curve carries a 32-bit flag word; `FCURVE_DISABLED` marks a
curve whose property path failed to resolve.  The dope-sheet filter-flag
word carries `ADS_FILTER_ONLY_ERRORS`.  The two bit positions are taken
from the DNA headers, which are not among the sampled sources; the claims
depend only on each being a single bit of the respective 32-bit word. -/

def FCURVE_DISABLED : Nat := 2 ^ 6

def ADS_FILTER_ONLY_ERRORS : Nat := 2 ^ 28

/-- All 32 bits set: the width of the C `int` flag words. -/
def mask32 : Nat := 2 ^ 32 - 1

/-- Clearing a flag bit, `f &= ~b` on a 32-bit word. -/
def clear_flag_bit (f b : Nat) : Nat := f &&& (mask32 ^^^ b)

/-- Legacy F-Curve as seen by the editor pass: property path, flag word,
and the keyframe data (which the pass must not touch). -/
structure LegacyFCurve where
  rna_path : String
  flag : Nat
  keys : List (ℚ × ℚ)
deriving DecidableEq, Repr

/-- One filtered channel element (`bAnimListElem`): the owning entity id,
opaque data the visibility filter may consult, and the F-Curve. -/
structure AnimChannel where
  owner_id : Nat
  vis_data : Nat
  fcu : LegacyFCurve
deriving DecidableEq, Repr

/-- The editing context (`bAnimContext` together with its dope sheet): the
filter-flag word and the channel collection. -/
structure AnimContext where
  filterflag : Nat
  channels : List AnimChannel
deriving DecidableEq, Repr

/-- The filter-flag word in effect while filtering: the only-show-errors
bit is taken off first when it was set (`filterflag &= ~ADS_FILTER_ONLY_ERRORS`). -/
def reevaluate_filterflag_during (f : Nat) : Nat :=
  if (f &&& ADS_FILTER_ONLY_ERRORS) != 0 then clear_flag_bit f ADS_FILTER_ONLY_ERRORS else f

/-- The filter-flag word on return: the bit is set back afterwards iff it
was taken off. -/
def reevaluate_filterflag_after (f : Nat) : Nat :=
  if (f &&& ADS_FILTER_ONLY_ERRORS) != 0 then
    reevaluate_filterflag_during f ||| ADS_FILTER_ONLY_ERRORS
  else reevaluate_filterflag_during f

/-- The per-channel body of the loop: clear `FCURVE_DISABLED` if the
property path resolves against the owning entity, set it otherwise.
Resolution (`RNA_path_resolve_property`) is an external capability passed
as the `resolves` parameter. -/
def revalidate_channel (resolves : Nat → String → Bool) (ch : AnimChannel) : AnimChannel :=
  if resolves ch.owner_id ch.fcu.rna_path then
    { ch with fcu := { ch.fcu with flag := clear_flag_bit ch.fcu.flag FCURVE_DISABLED } }
  else
    { ch with fcu := { ch.fcu with flag := ch.fcu.flag ||| FCURVE_DISABLED } }

/-- Action of the pass on one channel of the collection: channels the
filter yields (`ANIM_animdata_filter`, the external `visible` capability,
consulted with the during-pass filter flag) are revalidated, others are
left alone. -/
def reevaluate_step (visible : Nat → AnimChannel → Bool) (resolves : Nat → String → Bool)
    (ff_during : Nat) (ch : AnimChannel) : AnimChannel :=
  if visible ff_during ch then revalidate_channel resolves ch else ch

/-- `reevaluate_fcurve_errors` from `animdata.cc`: suspend the
only-show-errors filter, revalidate every filtered channel's property
path, and restore the filter flag. -/
def reevaluate_fcurve_errors (visible : Nat → AnimChannel → Bool)
    (resolves : Nat → String → Bool) (ac : AnimContext) : AnimContext :=
  { filterflag := reevaluate_filterflag_after ac.filterflag
    channels := ac.channels.map
      (reevaluate_step visible resolves (reevaluate_filterflag_during ac.filterflag)) }

/-! Bit-level facts about the flag words. -/

theorem mask32_testBit (j : Nat) : mask32.testBit j = decide (j < 32) := by
  unfold mask32
  exact Nat.testBit_two_pow_sub_one 32 j

theorem testBit_ge_32_eq_false {f j : Nat} (hf : f < 2 ^ 32) (hj : 32 ≤ j) :
    f.testBit j = false :=
  Nat.testBit_lt_two_pow (lt_of_lt_of_le hf (Nat.pow_le_pow_right (by norm_num) hj))

/-- Bits of a word after clearing one bit below 32. -/
theorem clear_flag_bit_testBit {f : Nat} (k j : Nat) (hk : k < 32) (hf : f < 2 ^ 32) :
    (clear_flag_bit f (2 ^ k)).testBit j = (f.testBit j && !decide (j = k)) := by
  unfold clear_flag_bit
  rw [Nat.testBit_and, Nat.testBit_xor, mask32_testBit, Nat.testBit_two_pow]
  by_cases hj : j < 32
  · by_cases hjk : j = k
    · subst hjk
      simp [hj]
    · have hkj : ¬k = j := fun h => hjk h.symm
      simp [hj, hjk, hkj]
  · have h1 : f.testBit j = false := testBit_ge_32_eq_false hf (le_of_not_lt hj)
    have h2 : ¬(k = j) := fun h => hj (h ▸ hk)
    simp [hj, h1, h2]

/-- Bits of a word after setting one bit. -/
theorem set_flag_bit_testBit (f k j : Nat) :
    (f ||| 2 ^ k).testBit j = (f.testBit j || decide (j = k)) := by
  rw [Nat.testBit_or, Nat.testBit_two_pow]
  by_cases hjk : j = k
  · subst hjk
    simp
  · have hkj : ¬k = j := fun h => hjk h.symm
    simp [hjk, hkj]

/-- Setting a bit back after clearing it restores the original word,
provided the bit was set and the word fits in 32 bits. -/
theorem set_after_clear {f : Nat} (k : Nat) (hk : k < 32) (hf : f < 2 ^ 32)
    (hbit : f.testBit k = true) : clear_flag_bit f (2 ^ k) ||| 2 ^ k = f := by
  apply Nat.eq_of_testBit_eq
  intro j
  rw [set_flag_bit_testBit _ k j]
  rw [clear_flag_bit_testBit k j hk hf]
  by_cases hjk : j = k <;> simp [hjk, hbit]

/-- The bit test written as the loop writes it (`flag & BIT != 0`). -/
theorem and_two_pow_bne_zero (f k : Nat) : ((f &&& 2 ^ k) != 0) = f.testBit k := by
  cases hb : f.testBit k with
  | false =>
    have : f &&& 2 ^ k = 0 := by
      apply Nat.eq_of_testBit_eq
      intro j
      rw [Nat.testBit_and, Nat.testBit_two_pow, Nat.zero_testBit]
      by_cases hjk : k = j
      · rw [← hjk, hb]
        simp
      · simp [hjk]
    simp [this]
  | true =>
    have : (f &&& 2 ^ k).testBit k = true := by
      rw [Nat.testBit_and, Nat.testBit_two_pow, hb]
      simp
    have hne : f &&& 2 ^ k ≠ 0 := by
      intro h0
      rw [h0, Nat.zero_testBit] at this
      exact absurd this (by simp)
    simp [hne]

theorem reevaluate_filterflag_during_of_set {f : Nat} (hb : f.testBit 28 = true) :
    reevaluate_filterflag_during f = clear_flag_bit f (2 ^ 28) := by
  unfold reevaluate_filterflag_during
  have hA : ADS_FILTER_ONLY_ERRORS = 2 ^ 28 := rfl
  rw [hA, and_two_pow_bne_zero, hb]
  simp

theorem reevaluate_filterflag_during_of_clear {f : Nat} (hb : f.testBit 28 = false) :
    reevaluate_filterflag_during f = f := by
  unfold reevaluate_filterflag_during
  have hA : ADS_FILTER_ONLY_ERRORS = 2 ^ 28 := rfl
  rw [hA, and_two_pow_bne_zero, hb]
  simp

/-- The filter flag on return equals the filter flag at entry. -/
theorem reevaluate_filterflag_after_eq {f : Nat} (hf : f < 2 ^ 32) :
    reevaluate_filterflag_after f = f := by
  unfold reevaluate_filterflag_after
  have hA : ADS_FILTER_ONLY_ERRORS = 2 ^ 28 := rfl
  rw [hA, and_two_pow_bne_zero]
  cases hb : f.testBit 28 with
  | false =>
    simp [reevaluate_filterflag_during_of_clear hb]
  | true =>
    simp only [if_true]
    rw [reevaluate_filterflag_during_of_set hb]
    exact set_after_clear 28 (by norm_num) hf hb

/-- C10: `reevaluate_fcurve_errors` restores the caller's filter
configuration exactly: the filter-flag word on return equals its pre-call
value; during the pass every bit other than the only-show-errors bit
(bit 28) keeps its original value, the only-show-errors bit is clear, and
when it was not initially set the word is not modified at all. -/
theorem reevaluate_fcurve_errors_restores_filterflag
    (visible : Nat → AnimChannel → Bool) (resolves : Nat → String → Bool)
    (ac : AnimContext) (hf : ac.filterflag < 2 ^ 32) :
    (reevaluate_fcurve_errors visible resolves ac).filterflag = ac.filterflag ∧
    (∀ j, j ≠ 28 →
      (reevaluate_filterflag_during ac.filterflag).testBit j = ac.filterflag.testBit j) ∧
    (reevaluate_filterflag_during ac.filterflag).testBit 28 = false ∧
    (ac.filterflag.testBit 28 = false →
      reevaluate_filterflag_during ac.filterflag = ac.filterflag) := by
  refine ⟨reevaluate_filterflag_after_eq hf, ?_, ?_, fun hb => reevaluate_filterflag_during_of_clear hb⟩
  · intro j hj
    cases hb : ac.filterflag.testBit 28 with
    | false => rw [reevaluate_filterflag_during_of_clear hb]
    | true =>
      rw [reevaluate_filterflag_during_of_set hb,
        clear_flag_bit_testBit 28 j (by norm_num) hf]
      simp [hj]
  · cases hb : ac.filterflag.testBit 28 with
    | false => rw [reevaluate_filterflag_during_of_clear hb]; exact hb
    | true =>
      rw [reevaluate_filterflag_during_of_set hb,
        clear_flag_bit_testBit 28 28 (by norm_num) hf]
      simp

theorem reevaluate_fcurve_errors_restores_filterflag_witness :
    (reevaluate_fcurve_errors (fun _ _ => true) (fun _ _ => false)
        ⟨2 ^ 28 + 5, []⟩).filterflag = (⟨2 ^ 28 + 5, []⟩ : AnimContext).filterflag :=
  (reevaluate_fcurve_errors_restores_filterflag (fun _ _ => true) (fun _ _ => false)
    ⟨2 ^ 28 + 5, []⟩ (by norm_num)).1

/-- Clearing the same bit twice is the same as clearing it once. -/
theorem clear_flag_bit_idem (f b : Nat) :
    clear_flag_bit (clear_flag_bit f b) b = clear_flag_bit f b := by
  unfold clear_flag_bit
  rw [Nat.and_assoc, Nat.and_self]

/-- Setting the same bit twice is the same as setting it once. -/
theorem set_flag_bit_idem (f b : Nat) : (f ||| b) ||| b = f ||| b := by
  rw [Nat.or_assoc, Nat.or_self]

/-- `revalidate_channel` touches only the flag word. -/
theorem revalidate_channel_fields (resolves : Nat → String → Bool) (ch : AnimChannel) :
    (revalidate_channel resolves ch).owner_id = ch.owner_id ∧
    (revalidate_channel resolves ch).vis_data = ch.vis_data ∧
    (revalidate_channel resolves ch).fcu.rna_path = ch.fcu.rna_path ∧
    (revalidate_channel resolves ch).fcu.keys = ch.fcu.keys := by
  unfold revalidate_channel
  cases resolves ch.owner_id ch.fcu.rna_path <;> simp

/-- Within the flag word, `revalidate_channel` touches only bit 6
(`FCURVE_DISABLED`), and sets it to the negation of path resolution. -/
theorem revalidate_channel_flag (resolves : Nat → String → Bool) (ch : AnimChannel)
    (hfl : ch.fcu.flag < 2 ^ 32) :
    (∀ j, j ≠ 6 →
      (revalidate_channel resolves ch).fcu.flag.testBit j = ch.fcu.flag.testBit j) ∧
    (revalidate_channel resolves ch).fcu.flag.testBit 6 =
      !resolves ch.owner_id ch.fcu.rna_path := by
  unfold revalidate_channel
  cases hr : resolves ch.owner_id ch.fcu.rna_path with
  | true =>
    constructor
    · intro j hj
      show (clear_flag_bit ch.fcu.flag FCURVE_DISABLED).testBit j = _
      rw [show FCURVE_DISABLED = 2 ^ 6 from rfl,
        clear_flag_bit_testBit 6 j (by norm_num) hfl]
      simp [hj]
    · show (clear_flag_bit ch.fcu.flag FCURVE_DISABLED).testBit 6 = _
      rw [show FCURVE_DISABLED = 2 ^ 6 from rfl,
        clear_flag_bit_testBit 6 6 (by norm_num) hfl]
      simp
  | false =>
    constructor
    · intro j hj
      show (ch.fcu.flag ||| FCURVE_DISABLED).testBit j = _
      rw [show FCURVE_DISABLED = 2 ^ 6 from rfl, set_flag_bit_testBit]
      simp [hj]
    · show (ch.fcu.flag ||| FCURVE_DISABLED).testBit 6 = _
      rw [show FCURVE_DISABLED = 2 ^ 6 from rfl, set_flag_bit_testBit]
      simp

/-- Revalidating an already revalidated channel changes nothing: the same
resolution outcome re-clears or re-sets the same bit. -/
theorem revalidate_channel_idem (resolves : Nat → String → Bool) (ch : AnimChannel) :
    revalidate_channel resolves (revalidate_channel resolves ch) =
      revalidate_channel resolves ch := by
  obtain ⟨oid, vd, ⟨rp, fl, ks⟩⟩ := ch
  unfold revalidate_channel
  cases hr : resolves oid rp with
  | true => simp [hr, clear_flag_bit_idem]
  | false => simp [hr, set_flag_bit_idem]

/-- C8: the validity-marking pass acts channel-wise: a visited channel
(one the suspended-filter pass yields) gets its disabled flag set exactly
when its property path fails to resolve, and nothing but that flag bit is
mutated (identity, auxiliary data, path and curve data are untouched, as
is every other flag bit); unvisited channels are untouched; and the pass
is idempotent: running it a second time with unchanged inputs changes
nothing.  The visibility capability is assumed not to depend on the
disabled bit, which is what suspending the only-show-errors filter
guarantees in the source. -/
theorem reevaluate_fcurve_errors_validity
    (visible : Nat → AnimChannel → Bool) (resolves : Nat → String → Bool)
    (ac : AnimContext)
    (hff : ac.filterflag < 2 ^ 32)
    (hflags : ∀ ch ∈ ac.channels, ch.fcu.flag < 2 ^ 32)
    (hvis : ∀ (ff : Nat) (c1 c2 : AnimChannel), c1.owner_id = c2.owner_id →
      c1.vis_data = c2.vis_data → c1.fcu.rna_path = c2.fcu.rna_path →
      c1.fcu.keys = c2.fcu.keys →
      (∀ j, j ≠ 6 → c1.fcu.flag.testBit j = c2.fcu.flag.testBit j) →
      visible ff c1 = visible ff c2) :
    ((reevaluate_fcurve_errors visible resolves ac).channels =
      ac.channels.map (reevaluate_step visible resolves
        (reevaluate_filterflag_during ac.filterflag))) ∧
    (∀ ch ∈ ac.channels,
      ((reevaluate_step visible resolves (reevaluate_filterflag_during ac.filterflag)
          ch).owner_id = ch.owner_id ∧
        (reevaluate_step visible resolves (reevaluate_filterflag_during ac.filterflag)
          ch).vis_data = ch.vis_data ∧
        (reevaluate_step visible resolves (reevaluate_filterflag_during ac.filterflag)
          ch).fcu.rna_path = ch.fcu.rna_path ∧
        (reevaluate_step visible resolves (reevaluate_filterflag_during ac.filterflag)
          ch).fcu.keys = ch.fcu.keys) ∧
      (∀ j, j ≠ 6 →
        (reevaluate_step visible resolves (reevaluate_filterflag_during ac.filterflag)
          ch).fcu.flag.testBit j = ch.fcu.flag.testBit j) ∧
      (visible (reevaluate_filterflag_during ac.filterflag) ch = true →
        (reevaluate_step visible resolves (reevaluate_filterflag_during ac.filterflag)
          ch).fcu.flag.testBit 6 = !resolves ch.owner_id ch.fcu.rna_path) ∧
      (visible (reevaluate_filterflag_during ac.filterflag) ch = false →
        reevaluate_step visible resolves (reevaluate_filterflag_during ac.filterflag)
          ch = ch)) ∧
    reevaluate_fcurve_errors visible resolves (reevaluate_fcurve_errors visible resolves ac) =
      reevaluate_fcurve_errors visible resolves ac := by
  have hstep : ∀ ch ∈ ac.channels,
      reevaluate_step visible resolves (reevaluate_filterflag_during ac.filterflag)
        (reevaluate_step visible resolves (reevaluate_filterflag_during ac.filterflag) ch) =
      reevaluate_step visible resolves (reevaluate_filterflag_during ac.filterflag) ch := by
    intro ch hch
    cases hv : visible (reevaluate_filterflag_during ac.filterflag) ch with
    | false => simp [reevaluate_step, hv]
    | true =>
      have hfields := revalidate_channel_fields resolves ch
      have hflag := revalidate_channel_flag resolves ch (hflags ch hch)
      have hv2 : visible (reevaluate_filterflag_during ac.filterflag)
          (revalidate_channel resolves ch) = true := by
        rw [hvis (reevaluate_filterflag_during ac.filterflag)
          (revalidate_channel resolves ch) ch hfields.1 hfields.2.1 hfields.2.2.1
          hfields.2.2.2 hflag.1]
        exact hv
      simp only [reevaluate_step, hv, if_true]
      rw [hv2]
      simp [revalidate_channel_idem]
  refine ⟨rfl, ?_, ?_⟩
  · intro ch hch
    cases hv : visible (reevaluate_filterflag_during ac.filterflag) ch with
    | false =>
      have hid : reevaluate_step visible resolves
          (reevaluate_filterflag_during ac.filterflag) ch = ch := by
        simp [reevaluate_step, hv]
      rw [hid]
      refine ⟨⟨rfl, rfl, rfl, rfl⟩, fun j _ => rfl, ?_, fun _ => rfl⟩
      intro hcontra
      exact absurd hcontra (by simp)
    | true =>
      have hid : reevaluate_step visible resolves
          (reevaluate_filterflag_during ac.filterflag) ch =
          revalidate_channel resolves ch := by
        simp [reevaluate_step, hv]
      rw [hid]
      have hfields := revalidate_channel_fields resolves ch
      have hflag := revalidate_channel_flag resolves ch (hflags ch hch)
      refine ⟨⟨hfields.1, hfields.2.1, hfields.2.2.1, hfields.2.2.2⟩, hflag.1,
        fun _ => hflag.2, ?_⟩
      intro hcontra
      exact absurd hcontra (by simp)
  · have ha : reevaluate_filterflag_after ac.filterflag = ac.filterflag :=
      reevaluate_filterflag_after_eq hff
    show AnimContext.mk
        (reevaluate_filterflag_after (reevaluate_filterflag_after ac.filterflag))
        ((ac.channels.map (reevaluate_step visible resolves
            (reevaluate_filterflag_during ac.filterflag))).map
          (reevaluate_step visible resolves
            (reevaluate_filterflag_during (reevaluate_filterflag_after ac.filterflag)))) =
      AnimContext.mk (reevaluate_filterflag_after ac.filterflag)
        (ac.channels.map (reevaluate_step visible resolves
          (reevaluate_filterflag_during ac.filterflag)))
    rw [ha, List.map_map, AnimContext.mk.injEq]
    refine ⟨ha, ?_⟩
    apply List.map_congr_left
    intro ch hch
    exact hstep ch hch


/-- A context for instantiating the validity-pass theorems: filter flag
with the only-show-errors bit set, one channel whose path resolves and one
whose path does not. -/
def wAC : AnimContext :=
  ⟨2 ^ 28 + 5, [⟨1, 0, ⟨"location", 64, []⟩⟩, ⟨2, 0, ⟨"bad_path", 0, []⟩⟩]⟩

theorem reevaluate_fcurve_errors_validity_witness :
    reevaluate_fcurve_errors (fun _ _ => true) (fun _ p => p == "location")
        (reevaluate_fcurve_errors (fun _ _ => true) (fun _ p => p == "location") wAC) =
      reevaluate_fcurve_errors (fun _ _ => true) (fun _ p => p == "location") wAC :=
  (reevaluate_fcurve_errors_validity (fun _ _ => true) (fun _ p => p == "location") wAC
    (by decide) (by decide) (fun _ _ _ _ _ _ _ _ => rfl)).2.2

/-! The layer evaluation engine.  Its implementing source file
(`evaluation.cc` with `evaluation_internal.hh`) is not among the sampled
sources — only its test `evaluation_test.cc` is — so the definitions of
this section are modelled from the spec (§4.1) and that test. -/

/-- Modelled from the spec: the external Curve Evaluator capability
(`evaluate(time) -> value`).  The sampled scenario inserts keys with
linear interpolation (`BEZT_IPO_LIN`), so the model interpolates linearly
between neighbouring keyframes and holds the boundary values outside the
keyed range. -/
def evalKeys : (ℚ × ℚ) → List (ℚ × ℚ) → ℚ → ℚ
  | (_, v0), [], _ => v0
  | (t0, v0), (t1, v1) :: rest, t =>
    if t ≤ t0 then v0
    else if t ≤ t1 then v0 + (v1 - v0) * (t - t0) / (t1 - t0)
    else evalKeys (t1, v1) rest t

/-- Modelled from the spec: evaluating one curve at a time. -/
def FCurve.evaluate (fcu : FCurve) (t : ℚ) : ℚ :=
  match fcu.keys with
  | [] => 0
  | k :: ks => evalKeys k ks t

/-- The property identifier of a channel. -/
def fcu_pid (fcu : FCurve) : PropIdentifier := ⟨fcu.rna_path, fcu.array_index⟩

/-- Writing into an evaluation result: overwrite the entry for the key if
present, append otherwise (mapping semantics of `EvaluationResult`). -/
def result_upsert : List (PropIdentifier × ℚ) → PropIdentifier → ℚ → List (PropIdentifier × ℚ)
  | [], k, v => [(k, v)]
  | (k1, v1) :: rest, k, v =>
    if k1 = k then (k, v) :: rest else (k1, v1) :: result_upsert rest k v

/-- Reading an evaluation result. -/
def result_lookup (r : List (PropIdentifier × ℚ)) (k : PropIdentifier) : Option ℚ :=
  (r.find? (fun e => e.1 == k)).map Prod.snd

/-- Modelled from the spec and the test: the animated entity's backing
state (the object's stored location and rotation element values). -/
structure EntityState where
  loc : List ℚ
  rot : List ℚ
deriving DecidableEq, Repr

/-- Modelled from the spec: one strip's contribution to `evaluate_layer` —
look up the strip's channels-for-output table for the output (skip the
strip if there is none), then evaluate every channel at the context time,
unconditionally (no range check), overwriting entries written by earlier
strips.  The entity state is threaded through explicitly to make the
side-effect contract provable; evaluation only reads curve data, so the
state passes through untouched. -/
def evaluate_strip (t : ℚ) (output_index : Nat)
    (acc : List (PropIdentifier × ℚ) × EntityState) (strip : Strip) :
    List (PropIdentifier × ℚ) × EntityState :=
  match strip.data with
  | .keyframe channels =>
    match chans_for_out channels output_index with
    | none => acc
    | some cfo =>
      (cfo.fcurves.foldl
        (fun r fcu => result_upsert r (fcu_pid fcu) (fcu.evaluate t)) acc.1,
       acc.2)

/-- Modelled from the spec: `evaluate_layer(entity, layer, output_index,
context)` — iterate the layer's strips in stored order, accumulating the
evaluation result; returns the result together with the entity state. -/
def evaluate_layer (entity : EntityState) (layer : Layer) (output_index : Nat)
    (eval_time : ℚ) : List (PropIdentifier × ℚ) × EntityState :=
  layer.strips.foldl (evaluate_strip eval_time output_index) ([], entity)

/-- The channels of a strip (single strip variant). -/
def strip_channels (s : Strip) : List ChannelsForOutput :=
  match s.data with
  | .keyframe channels => channels

/-- The value a strip contributes for one property identifier: its table's
curve for the identifier, evaluated at the context time (no range check). -/
def strip_value_for (t : ℚ) (output_index : Nat) (pid : PropIdentifier)
    (strip : Strip) : Option ℚ :=
  match chans_for_out (strip_channels strip) output_index with
  | none => none
  | some cfo =>
    (cfo.fcurve_find pid.rna_path pid.array_index).map (fun fcu => fcu.evaluate t)

/-- One strip step never writes to the entity state. -/
theorem evaluate_strip_entity (t : ℚ) (oi : Nat)
    (acc : List (PropIdentifier × ℚ) × EntityState) (strip : Strip) :
    (evaluate_strip t oi acc strip).2 = acc.2 := by
  obtain ⟨fs, fe, data⟩ := strip
  obtain ⟨channels⟩ := data
  cases h : chans_for_out channels oi <;> simp [evaluate_strip, h]

/-- C1: `evaluate_layer` leaves the animated entity's backing state
unchanged — the entity-state snapshot returned by evaluation equals the
snapshot passed in, for every layer, output index and evaluation time. -/
theorem evaluate_layer_does_not_mutate_entity (entity : EntityState) (layer : Layer)
    (output_index : Nat) (eval_time : ℚ) :
    (evaluate_layer entity layer output_index eval_time).2 = entity := by
  unfold evaluate_layer
  have h : ∀ (strips : List Strip) (acc : List (PropIdentifier × ℚ) × EntityState),
      (strips.foldl (evaluate_strip eval_time output_index) acc).2 = acc.2 := by
    intro strips
    induction strips with
    | nil => intro acc; rfl
    | cons s ss ih =>
      intro acc
      rw [List.foldl_cons, ih (evaluate_strip eval_time output_index acc s),
        evaluate_strip_entity]
  exact h layer.strips ([], entity)

/-- C9: `evaluate_layer` is deterministic — two calls with identical
inputs (entity state, layer, output index, evaluation time) produce
identical evaluation results (it is a pure function of its inputs). -/
theorem evaluate_layer_deterministic (e1 e2 : EntityState) (l1 l2 : Layer)
    (oi1 oi2 : Nat) (t1 t2 : ℚ)
    (he : e1 = e2) (hl : l1 = l2) (ho : oi1 = oi2) (ht : t1 = t2) :
    evaluate_layer e1 l1 oi1 t1 = evaluate_layer e2 l2 oi2 t2 := by
  subst he hl ho ht
  rfl

theorem evaluate_layer_deterministic_witness :
    evaluate_layer ⟨[3], [0]⟩ wLayerBottom 0 3 = evaluate_layer ⟨[3], [0]⟩ wLayerBottom 0 3 :=
  evaluate_layer_deterministic ⟨[3], [0]⟩ ⟨[3], [0]⟩ wLayerBottom wLayerBottom 0 0 3 3
    rfl rfl rfl rfl

/-- Reading the head entry of a result list. -/
theorem result_lookup_cons (k1 : PropIdentifier) (v1 : ℚ)
    (rest : List (PropIdentifier × ℚ)) (k2 : PropIdentifier) :
    result_lookup ((k1, v1) :: rest) k2 =
      if k1 = k2 then some v1 else result_lookup rest k2 := by
  by_cases h : k1 = k2
  · simp [result_lookup, List.find?, h]
  · have hb : (k1 == k2) = false := by
      cases hh : k1 == k2
      · rfl
      · exact absurd (eq_of_beq hh) h
    simp [result_lookup, List.find?, hb, h]

/-- Reading back through an overwrite. -/
theorem result_lookup_upsert (k k2 : PropIdentifier) (v : ℚ) :
    ∀ r : List (PropIdentifier × ℚ),
      result_lookup (result_upsert r k v) k2 =
        if k2 = k then some v else result_lookup r k2
  | [] => by
    rw [show result_upsert [] k v = [(k, v)] from rfl, result_lookup_cons]
    by_cases h : k2 = k
    · subst h
      simp
    · rw [if_neg (fun hh => h hh.symm), if_neg h]
  | (k1, v1) :: rest => by
    by_cases h1 : k1 = k
    · subst h1
      rw [show result_upsert ((k1, v1) :: rest) k1 v = (k1, v) :: rest from by
          simp [result_upsert],
        result_lookup_cons, result_lookup_cons]
      by_cases h : k2 = k1
      · subst h
        simp
      · rw [if_neg (show ¬k1 = k2 from fun hh => h hh.symm),
          if_neg (show ¬k1 = k2 from fun hh => h hh.symm), if_neg h]
    · rw [show result_upsert ((k1, v1) :: rest) k v = (k1, v1) :: result_upsert rest k v from by
          simp [result_upsert, h1],
        result_lookup_cons, result_lookup_cons, result_lookup_upsert k k2 v rest]
      by_cases h12 : k1 = k2
      · subst h12
        rw [if_pos rfl, if_pos rfl, if_neg (fun hh : k1 = k => h1 hh)]
      · rw [if_neg h12, if_neg h12]

/-- Reading back after folding a channel table into the result: the last
matching channel in the table wins, falling back to the previous result. -/
theorem result_lookup_foldl_upsert (t : ℚ) (pid : PropIdentifier) :
    ∀ (fcurves : List FCurve) (r : List (PropIdentifier × ℚ)),
      result_lookup
          (fcurves.foldl (fun r2 fcu => result_upsert r2 (fcu_pid fcu) (fcu.evaluate t)) r)
          pid =
        (fcurves.reverse.findSome?
            (fun fcu => if fcu_pid fcu = pid then some (fcu.evaluate t) else none)).or
          (result_lookup r pid)
  | [], r => by simp
  | f :: fs, r => by
    rw [List.foldl_cons,
      result_lookup_foldl_upsert t pid fs (result_upsert r (fcu_pid f) (f.evaluate t)),
      List.reverse_cons, List.findSome?_append, result_lookup_upsert]
    by_cases h : fcu_pid f = pid
    · rw [if_pos h.symm]
      simp [List.findSome?, h, Option.or_assoc]
    · rw [if_neg (fun hh => h hh.symm)]
      simp [List.findSome?, h, Option.or_none]

/-- With distinct identifiers in a channel table (the mapping invariant of
`ChannelsForOutput`), the last match in the table is the unique match
found by `fcurve_find`. -/
theorem findSome?_reverse_of_nodup (t : ℚ) (pid : PropIdentifier) :
    ∀ l : List FCurve, (l.map fcu_pid).Nodup →
      l.reverse.findSome?
          (fun fcu => if fcu_pid fcu = pid then some (fcu.evaluate t) else none) =
        (l.find? (fun fcu =>
            fcu.rna_path == pid.rna_path && fcu.array_index == pid.array_index)).map
          (fun fcu => fcu.evaluate t)
  | [], _ => rfl
  | f :: fs, hnd => by
    rw [List.map_cons, List.nodup_cons] at hnd
    obtain ⟨hnotmem, hnd2⟩ := hnd
    have hPeq : (f.rna_path == pid.rna_path && f.array_index == pid.array_index) = true ↔
        fcu_pid f = pid := by
      obtain ⟨pp, pai⟩ := pid
      simp [fcu_pid]
    rw [List.reverse_cons, List.findSome?_append]
    by_cases h : fcu_pid f = pid
    · have hPt : (f.rna_path == pid.rna_path && f.array_index == pid.array_index) = true :=
        hPeq.2 h
      have hnone : fs.reverse.findSome?
          (fun fcu => if fcu_pid fcu = pid then some (fcu.evaluate t) else none) = none := by
        rw [List.findSome?_eq_none_iff]
        intro x hx
        have hxk : ¬fcu_pid x = pid := by
          intro hxk
          have hmm : fcu_pid x ∈ fs.map fcu_pid :=
            List.mem_map_of_mem fcu_pid (List.mem_reverse.1 hx)
          rw [hxk, ← h] at hmm
          exact hnotmem hmm
        simp [hxk]
      rw [hnone]
      simp [List.find?, List.findSome?, hPt, h]
    · have hPf : (f.rna_path == pid.rna_path && f.array_index == pid.array_index) = false := by
        cases hh : (f.rna_path == pid.rna_path && f.array_index == pid.array_index)
        · rfl
        · exact absurd (hPeq.1 hh) h
      rw [findSome?_reverse_of_nodup t pid fs hnd2]
      simp [List.find?, List.findSome?, hPf, h, Option.or_none]

/-- Reading back after one strip's evaluation: the strip's own value for
the identifier if it animates it, the previous result otherwise. -/
theorem result_lookup_evaluate_strip (t : ℚ) (oi : Nat) (pid : PropIdentifier)
    (acc : List (PropIdentifier × ℚ) × EntityState) (strip : Strip)
    (hnd : ∀ cfo ∈ strip_channels strip, (cfo.fcurves.map fcu_pid).Nodup) :
    result_lookup (evaluate_strip t oi acc strip).1 pid =
      (strip_value_for t oi pid strip).or (result_lookup acc.1 pid) := by
  obtain ⟨fs, fe, data⟩ := strip
  obtain ⟨channels⟩ := data
  cases h : chans_for_out channels oi with
  | none => simp [evaluate_strip, strip_value_for, strip_channels, h]
  | some cfo =>
    have hmem : cfo ∈ channels := List.mem_of_find?_eq_some h
    have hnd2 := hnd cfo (by simpa [strip_channels] using hmem)
    simp only [evaluate_strip, strip_value_for, strip_channels, h]
    rw [result_lookup_foldl_upsert, findSome?_reverse_of_nodup t pid cfo.fcurves hnd2]
    rfl

/-- Reading back after folding a strip sequence: the last strip (in stored
order) animating the identifier wins, falling back to the accumulator. -/
theorem result_lookup_foldl_strips (t : ℚ) (oi : Nat) (pid : PropIdentifier) :
    ∀ (strips : List Strip) (acc : List (PropIdentifier × ℚ) × EntityState),
      (∀ s ∈ strips, ∀ cfo ∈ strip_channels s, (cfo.fcurves.map fcu_pid).Nodup) →
      result_lookup ((strips.foldl (evaluate_strip t oi) acc).1) pid =
        (strips.reverse.findSome? (strip_value_for t oi pid)).or (result_lookup acc.1 pid)
  | [], acc, _ => by simp
  | s :: ss, acc, hnd => by
    rw [List.foldl_cons,
      result_lookup_foldl_strips t oi pid ss (evaluate_strip t oi acc s)
        (fun s2 hs2 => hnd s2 (List.mem_cons_of_mem s hs2)),
      result_lookup_evaluate_strip t oi pid acc s (hnd s (List.mem_cons_self s ss)),
      List.reverse_cons, List.findSome?_append, Option.or_assoc]
    cases hsv : strip_value_for t oi pid s <;> simp [List.findSome?, hsv]

/-- C6: `evaluate_layer` evaluates, for every keyframe strip in the layer
(stored order) with a channels-for-output table for the output, every
channel at the context time — unconditionally, with no check of the
strip's frame range — and overwrites earlier strips' entries, so the final
result holds, for each identifier, the value of the last strip in stored
order that animates it (the first strip of the reversed sequence). -/
theorem evaluate_layer_last_strip_wins (entity : EntityState) (layer : Layer)
    (output_index : Nat) (eval_time : ℚ) (pid : PropIdentifier)
    (hnd : ∀ s ∈ layer.strips, ∀ cfo ∈ strip_channels s, (cfo.fcurves.map fcu_pid).Nodup) :
    result_lookup (evaluate_layer entity layer output_index eval_time).1 pid =
      layer.strips.reverse.findSome? (strip_value_for eval_time output_index pid) := by
  unfold evaluate_layer
  rw [result_lookup_foldl_strips eval_time output_index pid layer.strips ([], entity) hnd]
  simp [result_lookup]

/-- Layer with two strips over disjoint ranges, both animating
location element 0; the query time 100 lies outside both ranges. -/
def wLayerTwo : Layer := ⟨"two", [wStripA, wStripFar]⟩

theorem evaluate_layer_last_strip_wins_witness :
    result_lookup (evaluate_layer ⟨[3], [0]⟩ wLayerTwo 0 100).1 ⟨"location", 0⟩ =
      wLayerTwo.strips.reverse.findSome? (strip_value_for 100 0 ⟨"location", 0⟩) :=
  evaluate_layer_last_strip_wins ⟨[3], [0]⟩ wLayerTwo 0 100 ⟨"location", 0⟩ (by decide)

/-- The strip of the sampled test `evaluate_layer__keyframes`: location
element 0 with linear keys (1, 47.1) and (5, 47.5), rotation element 1
with linear keys (1, 0) and (5, 3.14). -/
def wTestStrip : Strip :=
  ⟨1, 5, .keyframe [⟨0, [⟨"location", 0, [(1, 47.1), (5, 47.5)]⟩,
    ⟨"rotation_euler", 1, [(1, 0), (5, 3.14)]⟩]⟩]⟩

def wTestLayer : Layer := ⟨"Layer", [wTestStrip]⟩

/-- The entity state pre-set by the test: location and rotation elements
(3, 2, 7). -/
def wCube : EntityState := ⟨[3, 2, 7], [3, 2, 7]⟩

/-- C7: the sampled reference scenario.  Evaluating the layer at time 3
yields a non-empty result whose entry for location element 0 is 47.3
(linear interpolation between the keys), while the entity state — in
particular its stored location element 0, pre-set to 3 — is returned
unchanged. -/
theorem evaluate_layer_keyframes_scenario :
    (evaluate_layer wCube wTestLayer 0 3).1 ≠ [] ∧
    result_lookup (evaluate_layer wCube wTestLayer 0 3).1 ⟨"location", 0⟩ =
      some (47.3 : ℚ) ∧
    (evaluate_layer wCube wTestLayer 0 3).2 = wCube ∧
    (evaluate_layer wCube wTestLayer 0 3).2.loc = [3, 2, 7] := by
  refine ⟨?_, ?_, rfl, rfl⟩
  · norm_num [evaluate_layer, evaluate_strip, chans_for_out, List.find?,
      ChannelsForOutput.fcurve_find, FCurve.evaluate, evalKeys, result_upsert, result_lookup,
      fcu_pid, wTestStrip, wTestLayer, wCube]
    exact List.cons_ne_nil _ _
  · norm_num [evaluate_layer, evaluate_strip, chans_for_out, List.find?,
      ChannelsForOutput.fcurve_find, FCurve.evaluate, evalKeys, result_upsert, result_lookup,
      fcu_pid, wTestStrip, wTestLayer, wCube]

end BlenderAnimrig
